import Mathlib

/-!
Verification of the AsciiDoc cross-reference checker (check_xrefs.py).

The script's logical core is embedded shallowly:
* strings are lists of characters (`String` at the interface);
* each regular-expression scan of the source is implemented as an explicit
  left-to-right scanner with the same match/backtrack behaviour as the
  Python pattern on the inputs considered;
* Python character classes (str.lower, \w, \s, str.strip) are modelled at
  the ASCII level, matching their behaviour on ASCII text.

Sections:
1. character classes and small string utilities;
2. normalize_id (the auto-id normalizer);
3. the regex matchers and scan combinators;
4. extract_section_ids (anchor extractor), extract_xrefs (reference
   extractor), analyze_file and the merge/resolve phase of main;
5. lemmas and the theorems for the claims.
-/

/-- ASCII model of the Python whitespace class \s
(space, tab, newline, carriage return, vertical tab, form feed). -/
def pyIsSpace (c : Char) : Bool :=
  c == ' ' || c == '\t' || c == '\n' || c == '\r' || c == '\x0b' || c == '\x0c'

/-- ASCII model of the Python word class \w: letters, digits, underscore. -/
def isWordChar (c : Char) : Bool :=
  c.isAlphanum || c == '_'

/-- The character class of the pattern [^\w\s-] in normalize_id, negated:
characters kept by the first substitution. -/
def keepChar (c : Char) : Bool :=
  isWordChar c || pyIsSpace c || c == '-'

/-- The identifier class [a-zA-Z0-9_-] of the xref:/<<>> reference patterns. -/
def isIdChar (c : Char) : Bool :=
  c.isAlphanum || c == '_' || c == '-'

/-- Drop characters satisfying p from both ends (Python str.strip(chars)). -/
def stripEnds (p : Char → Bool) (l : List Char) : List Char :=
  ((l.dropWhile p).reverse.dropWhile p).reverse

/-- Python str.strip() with no argument: trim whitespace from both ends. -/
def pyStrip (l : List Char) : List Char :=
  stripEnds pyIsSpace l

/-- re.sub(p+ , r): replace every maximal run of characters satisfying p by
the single character r; characters not satisfying p are kept.  With
p = pyIsSpace, r = '-' this is re.sub(r'\s+', '-', ·); with p = (· == '-')
it is re.sub(r'-+', '-', ·). -/
def collapseRuns (p : Char → Bool) (r : Char) : List Char → List Char
  | [] => []
  | [c] => if p c then [r] else [c]
  | c :: d :: t =>
    if p c && p d then collapseRuns p r (d :: t)
    else (if p c then r else c) :: collapseRuns p r (d :: t)

/-- The body of normalize_id on character lists: lowercase, strip
[^\w\s-], collapse whitespace runs to '-', collapse '-' runs, strip
leading/trailing '-'. -/
def normalizeCore (l : List Char) : List Char :=
  stripEnds (· == '-')
    (collapseRuns (· == '-') '-'
      (collapseRuns pyIsSpace '-'
        ((l.map Char.toLower).filter keepChar)))

/-- normalize_id from check_xrefs.py. -/
def normalize_id (s : String) : String :=
  (normalizeCore s.toList).asString

/-- content.split('\n') on character lists: always returns at least one
(possibly empty) line; lines contain no newline character. -/
def splitNl : List Char → List (List Char)
  | [] => [[]]
  | c :: cs =>
    if c = '\n' then [] :: splitNl cs
    else
      match splitNl cs with
      | [] => [[c]]
      | l :: ls => (c :: l) :: ls

/-!
### Regex matchers

Each matcher takes the text at a candidate match position (always nonempty,
of the form c :: cs) and returns none if the pattern does not match there,
or some (g, k) where g is the captured group (or the text relevant to the
substitution) and the match consumes k + 1 characters, i.e. the scan
resumes at cs.drop k.
-/

/-- Matcher for the anchor pattern regex [[ ([^crbrack]+) ]] written
with double square brackets, used in extract_section_ids. -/
def mBB : List Char → Option (List Char × Nat)
  | '[' :: '[' :: rest =>
    let g := rest.takeWhile (· ≠ ']')
    if g.isEmpty then none
    else
      match rest.drop g.length with
      | ']' :: ']' :: _ => some (g, g.length + 3)
      | _ => none
  | _ => none

/-- Matcher for the anchor pattern with a hash: [# ([^crbrack]+) ]. -/
def mHash : List Char → Option (List Char × Nat)
  | '[' :: '#' :: rest =>
    let g := rest.takeWhile (· ≠ ']')
    if g.isEmpty then none
    else
      match rest.drop g.length with
      | ']' :: _ => some (g, g.length + 2)
      | _ => none
  | _ => none

/-- Matcher for the bold-markup pattern with one or two asterisks on each
side; the group is the inner text.  Mirrors the backtracking of the Python
pattern: a two-star opener never backtracks to a one-star opener, and the
closer greedily takes two stars when available. -/
def mBold : List Char → Option (List Char × Nat)
  | '*' :: '*' :: rest =>
    let g := rest.takeWhile (· ≠ '*')
    if g.isEmpty then none
    else
      match rest.drop g.length with
      | '*' :: '*' :: _ => some (g, g.length + 3)
      | '*' :: _ => some (g, g.length + 2)
      | _ => none
  | '*' :: rest =>
    let g := rest.takeWhile (· ≠ '*')
    if g.isEmpty then none
    else
      match rest.drop g.length with
      | '*' :: '*' :: _ => some (g, g.length + 2)
      | '*' :: _ => some (g, g.length + 1)
      | _ => none
  | _ => none

/-- Matcher for the italic-markup pattern with one or two underscores on
each side; same backtracking shape as mBold. -/
def mItal : List Char → Option (List Char × Nat)
  | '_' :: '_' :: rest =>
    let g := rest.takeWhile (· ≠ '_')
    if g.isEmpty then none
    else
      match rest.drop g.length with
      | '_' :: '_' :: _ => some (g, g.length + 3)
      | '_' :: _ => some (g, g.length + 2)
      | _ => none
  | '_' :: rest =>
    let g := rest.takeWhile (· ≠ '_')
    if g.isEmpty then none
    else
      match rest.drop g.length with
      | '_' :: '_' :: _ => some (g, g.length + 2)
      | '_' :: _ => some (g, g.length + 1)
      | _ => none
  | _ => none

/-- The backquote character, written by code point to keep the source free
of literal backquotes. -/
def tickChar : Char := Char.ofNat 96

/-- Matcher for the monospace-markup pattern: backquote, inner text without
backquotes, backquote; the group is the inner text. -/
def mTick : List Char → Option (List Char × Nat)
  | c :: rest =>
    if c = tickChar then
      let g := rest.takeWhile (· ≠ tickChar)
      if g.isEmpty then none
      else
        match rest.drop g.length with
        | d :: _ => if d = tickChar then some (g, g.length + 1) else none
        | _ => none
    else none
  | _ => none

/-- Matcher for bare URLs: http:// or https:// followed by at least one
character that is neither whitespace nor an opening square bracket. -/
def mUrl : List Char → Option (List Char × Nat)
  | 'h' :: 't' :: 't' :: 'p' :: 's' :: ':' :: '/' :: '/' :: rest =>
    let g := rest.takeWhile (fun c => !pyIsSpace c && c ≠ '[')
    if g.isEmpty then none else some (g, g.length + 7)
  | 'h' :: 't' :: 't' :: 'p' :: ':' :: '/' :: '/' :: rest =>
    let g := rest.takeWhile (fun c => !pyIsSpace c && c ≠ '[')
    if g.isEmpty then none else some (g, g.length + 6)
  | _ => none

/-- Matcher for the link:target[label] construct. -/
def mLink : List Char → Option (List Char × Nat)
  | 'l' :: 'i' :: 'n' :: 'k' :: ':' :: rest =>
    let t := rest.takeWhile (· ≠ '[')
    if t.isEmpty then none
    else
      match rest.drop t.length with
      | '[' :: rest2 =>
        let lbl := rest2.takeWhile (· ≠ ']')
        match rest2.drop lbl.length with
        | ']' :: _ => some (t, t.length + lbl.length + 6)
        | _ => none
      | _ => none
  | _ => none

/-- Matcher for the reference pattern xref:id with an optional bracketed
payload; the group is the identifier. -/
def mXref : List Char → Option (List Char × Nat)
  | 'x' :: 'r' :: 'e' :: 'f' :: ':' :: rest =>
    let g := rest.takeWhile isIdChar
    if g.isEmpty then none
    else
      match rest.drop g.length with
      | '[' :: rest2 =>
        let lbl := rest2.takeWhile (· ≠ ']')
        match rest2.drop lbl.length with
        | ']' :: _ => some (g, g.length + lbl.length + 6)
        | _ => some (g, g.length + 4)
      | _ => some (g, g.length + 4)
  | _ => none

/-- Matcher for the angle-bracket reference pattern <<id>> or <<id,text>>;
the group is the identifier. -/
def mAngle : List Char → Option (List Char × Nat)
  | '<' :: '<' :: rest =>
    let g := rest.takeWhile isIdChar
    if g.isEmpty then none
    else
      match rest.drop g.length with
      | '>' :: '>' :: _ => some (g, g.length + 3)
      | ',' :: rest2 =>
        let t := rest2.takeWhile (· ≠ '>')
        match rest2.drop t.length with
        | '>' :: '>' :: _ => some (g, g.length + t.length + 4)
        | _ => none
      | _ => none
  | _ => none

/-- finditer: scan left to right, collecting the group of every
non-overlapping match; on failure advance one character.  The first
argument is the number of already-consumed characters still to skip,
making the recursion structural on the text. -/
def scanMatchesA (m : List Char → Option (List Char × Nat)) :
    Nat → List Char → List (List Char)
  | _, [] => []
  | s + 1, _ :: cs => scanMatchesA m s cs
  | 0, c :: cs =>
    match m (c :: cs) with
    | some (g, k) => g :: scanMatchesA m k cs
    | none => scanMatchesA m 0 cs

/-- All match groups of matcher m in l, left to right, non-overlapping. -/
def scanMatches (m : List Char → Option (List Char × Nat)) (l : List Char) :
    List (List Char) :=
  scanMatchesA m 0 l

/-- re.sub: rewrite every non-overlapping match, replacing it by rep
applied to its group; unmatched characters are copied. -/
def subScanA (rep : List Char → List Char)
    (m : List Char → Option (List Char × Nat)) :
    Nat → List Char → List Char
  | _, [] => []
  | s + 1, _ :: cs => subScanA rep m s cs
  | 0, c :: cs =>
    match m (c :: cs) with
    | some (g, k) => rep g ++ subScanA rep m k cs
    | none => c :: subScanA rep m 0 cs

/-- re.sub over a whole string. -/
def subScan (rep : List Char → List Char)
    (m : List Char → Option (List Char × Nat)) (l : List Char) : List Char :=
  subScanA rep m 0 l

/-- The section-header pattern of extract_section_ids, compiled with
re.MULTILINE, applied to the document split into lines.  The Boolean state
is true while a match started on an earlier line whose equals-run was
followed only by whitespace, so that the greedy \s+ crosses line breaks and
the group (.+)$ is taken from the first later line holding a
non-whitespace character (that line is consumed by the match).  Matches
whose group is pure whitespace normalize to the empty identifier and are
dropped by the if in the source, so they are omitted here. -/
def findHeadingsA : Bool → List (List Char) → List (List Char)
  | _, [] => []
  | true, line :: rest =>
    let g := line.dropWhile pyIsSpace
    if g.isEmpty then findHeadingsA true rest
    else g :: findHeadingsA false rest
  | false, line :: rest =>
    if line.headD ' ' = '=' then
      let r := line.dropWhile (· == '=')
      if r.all pyIsSpace then findHeadingsA true rest
      else if pyIsSpace (r.headD 'x') then
        (r.dropWhile pyIsSpace) :: findHeadingsA false rest
      else findHeadingsA false rest
    else findHeadingsA false rest

/-- The raw header texts (group 2 of the section-header pattern) of a
document given as its list of lines. -/
def findHeadings (lines : List (List Char)) : List (List Char) :=
  findHeadingsA false lines

/-- The cleaning pipeline applied to a header text before normalization:
remove double-bracket and hash anchors, unwrap bold/italic/monospace
markup, remove bare URLs and link constructs — in the source's order. -/
def cleanHeader (t : List Char) : List Char :=
  subScan (fun _ => []) mLink
    (subScan (fun _ => []) mUrl
      (subScan id mTick
        (subScan id mItal
          (subScan id mBold
            (subScan (fun _ => []) mHash
              (subScan (fun _ => []) mBB t))))))

/-- The identifier contributed by one explicit anchor group: the part
before the first comma, trimmed (id_text.split(',')[0].strip()). -/
def anchorOfGroup (g : List Char) : String :=
  (pyStrip (g.takeWhile (· ≠ ','))).asString

/-- The identifier auto-generated from one raw header text
(match.group(2).strip(), cleaned, then normalize_id). -/
def headingId (g : List Char) : List Char :=
  normalizeCore (cleanHeader (pyStrip g))

/-- extract_section_ids from check_xrefs.py: the set of section ids of a
document's content. -/
def extract_section_ids (content : List Char) : Finset String :=
  ((scanMatches mBB content).map anchorOfGroup).toFinset ∪
  ((scanMatches mHash content).map anchorOfGroup).toFinset ∪
  ((((findHeadings (splitNl content)).map headingId).filter
      (fun a => !a.isEmpty)).map List.asString).toFinset

/-- Information about one cross-reference occurrence (the XRefInfo
dataclass). -/
structure XRefInfo where
  file_path : String
  line_number : Nat
  xref_id : String
  xref_type : String
deriving DecidableEq, Repr

/-- The per-line reference scan of extract_xrefs, starting at line number
n: for each line, first all xref: matches, then all angle-bracket
matches, then the following lines. -/
def xrefsOfLines (path : String) : Nat → List (List Char) → List XRefInfo
  | _, [] => []
  | n, line :: rest =>
    (scanMatches mXref line).map
        (fun g => ⟨path, n, g.asString, "xref"⟩) ++
      (scanMatches mAngle line).map
        (fun g => ⟨path, n, g.asString, "angle_bracket"⟩) ++
      xrefsOfLines path (n + 1) rest

/-- extract_xrefs from check_xrefs.py. -/
def extract_xrefs (content : List Char) (path : String) : List XRefInfo :=
  xrefsOfLines path 1 (splitNl content)

/-- Analysis results for a single file (the FileAnalysis dataclass). -/
structure FileAnalysis where
  file_path : String
  section_ids : Finset String
  xrefs : List XRefInfo
  errors : List String

/-- A document as seen by analyze_file: its path together with its content
when the read succeeds, or none when reading or decoding fails. -/
abbrev Document := String × Option String

/-- analyze_file: on a successful read run both extractors; on a failed
read return an error message, an empty anchor set and an empty reference
list. -/
def analyze_file : Document → FileAnalysis
  | (p, some content) =>
    ⟨p, extract_section_ids content.toList, extract_xrefs content.toList p, []⟩
  | (p, none) => ⟨p, ∅, [], ["Error reading " ++ p]⟩

/-- The per-document results of a run over a corpus of documents.  The
script computes them in parallel and merges them in completion order; all
merged quantities below are order-independent, so the corpus list order is
used. -/
def corpusResults (c : List Document) : List FileAnalysis :=
  c.map analyze_file

/-- The key set of the merged global anchor index all_section_ids. -/
def allSectionIdKeys (c : List Document) : Finset String :=
  (corpusResults c).foldr (fun r s => r.section_ids ∪ s) ∅

/-- The defining-document set all_section_ids[id]. -/
def allSectionIdFiles (c : List Document) (id : String) : Finset String :=
  (corpusResults c).foldr
    (fun r s => if id ∈ r.section_ids then insert r.file_path s else s) ∅

/-- The merged reference list all_xrefs. -/
def allXrefs (c : List Document) : List XRefInfo :=
  (corpusResults c).foldr (fun r l => r.xrefs ++ l) []

/-- The broken-reference list: references whose target identifier is not a
key of the merged index. -/
def brokenXrefs (c : List Document) : List XRefInfo :=
  (allXrefs c).filter (fun x => x.xref_id ∉ allSectionIdKeys c)

/-- The duplicate-anchor report: identifiers whose defining-document set
has more than one element. -/
def duplicateIds (c : List Document) : Finset String :=
  (allSectionIdKeys c).filter (fun id => 1 < (allSectionIdFiles c id).card)

/-!
### Utility lemmas
-/

theorem asString_toList (l : List Char) : (List.asString l).toList = l := rfl

theorem toLower_of_not_upper {c : Char} (h : ¬(65 ≤ c.toNat ∧ c.toNat ≤ 90)) :
    c.toLower = c := by
  unfold Char.toLower
  rw [if_neg]
  exact h

theorem toLower_toLower (c : Char) : c.toLower.toLower = c.toLower := by
  by_cases h : 65 ≤ c.toNat ∧ c.toNat ≤ 90
  · have h1 : c.toLower = Char.ofNat (c.toNat + 32) := by
      unfold Char.toLower
      rw [if_pos]
      exact h
    rw [h1]
    obtain ⟨h65, h90⟩ := h
    interval_cases h : c.toNat <;> decide
  · rw [toLower_of_not_upper h, toLower_of_not_upper h]

theorem dropWhile_head_not {p : Char → Bool} :
    ∀ {l : List Char} {c : Char}, (l.dropWhile p).head? = some c → p c = false := by
  intro l
  induction l with
  | nil => intro c h; simp at h
  | cons d t ih =>
    intro c h
    by_cases hd : p d
    · rw [List.dropWhile_cons_of_pos hd] at h
      exact ih h
    · rw [List.dropWhile_cons_of_neg hd] at h
      simp at h
      rw [← h]
      simpa using hd

theorem dropWhile_dropWhile (p : Char → Bool) (l : List Char) :
    (l.dropWhile p).dropWhile p = l.dropWhile p := by
  induction l with
  | nil => rfl
  | cons d t ih =>
    by_cases hd : p d
    · rw [List.dropWhile_cons_of_pos hd]
      exact ih
    · rw [List.dropWhile_cons_of_neg hd, List.dropWhile_cons_of_neg hd]

theorem dropWhile_eq_self_of_head {p : Char → Bool} {l : List Char}
    (h : ∀ c, l.head? = some c → p c = false) : l.dropWhile p = l := by
  cases l with
  | nil => rfl
  | cons d t =>
    have := h d (by simp)
    rw [List.dropWhile_cons_of_neg (by simp [this])]

theorem getLast?_dropWhile {p : Char → Bool} {l : List Char}
    (h : l.dropWhile p ≠ []) : (l.dropWhile p).getLast? = l.getLast? := by
  obtain ⟨t, ht⟩ := List.dropWhile_suffix (l := l) p
  conv_rhs => rw [← ht]
  rw [List.getLast?_append]
  cases hd : (l.dropWhile p).getLast? with
  | none => exact absurd (List.getLast?_eq_none_iff.mp hd) h
  | some x => simp [Option.or]

theorem stripEnds_idem (p : Char → Bool) (l : List Char) :
    stripEnds p (stripEnds p l) = stripEnds p l := by
  unfold stripEnds
  by_cases hB : ((l.dropWhile p).reverse.dropWhile p) = []
  · rw [hB]
    rfl
  · have hhead : ∀ c, ((l.dropWhile p).reverse.dropWhile p).reverse.head? = some c →
        p c = false := by
      intro c hc
      rw [List.head?_reverse, getLast?_dropWhile hB, List.getLast?_reverse] at hc
      exact dropWhile_head_not hc
    rw [dropWhile_eq_self_of_head hhead, List.reverse_reverse,
      dropWhile_dropWhile]

theorem collapseRuns_cons_of_pos {p : Char → Bool} {r c : Char} (hc : p c = true) :
    ∀ t, collapseRuns p r (c :: t) = r :: collapseRuns p r (t.dropWhile p) := by
  intro t
  induction t generalizing c with
  | nil => simp [collapseRuns, hc]
  | cons d t' ih =>
    by_cases hd : p d
    · show collapseRuns p r (c :: d :: t') = _
      rw [show collapseRuns p r (c :: d :: t') = collapseRuns p r (d :: t') by
        simp [collapseRuns, hc, hd]]
      rw [ih hd, List.dropWhile_cons_of_pos hd]
    · show collapseRuns p r (c :: d :: t') = _
      rw [show collapseRuns p r (c :: d :: t') = r :: collapseRuns p r (d :: t') by
        simp [collapseRuns, hc, hd]]
      rw [List.dropWhile_cons_of_neg hd]

theorem collapseRuns_eq_self {p : Char → Bool} {r : Char} {l : List Char}
    (h : ∀ c ∈ l, p c = false) : collapseRuns p r l = l := by
  induction l with
  | nil => rfl
  | cons c t ih =>
    have hc : p c = false := h c (by simp)
    cases t with
    | nil => simp [collapseRuns, hc]
    | cons d t' =>
      have step : collapseRuns p r (c :: d :: t') = c :: collapseRuns p r (d :: t') := by
        simp [collapseRuns, hc]
      rw [step, ih (fun x hx => h x (by simp [hx]))]

theorem mem_collapseRuns {p : Char → Bool} {r : Char} :
    ∀ {l : List Char} {c : Char}, c ∈ collapseRuns p r l →
      c = r ∨ (c ∈ l ∧ p c = false) := by
  intro l
  induction l with
  | nil => intro c h; simp [collapseRuns] at h
  | cons d t ih =>
    intro c h
    cases t with
    | nil =>
      by_cases hd : p d
      · simp [collapseRuns, hd] at h
        exact Or.inl h
      · simp [collapseRuns, hd] at h
        exact Or.inr ⟨by simp [h], h ▸ (by simpa using hd)⟩
    | cons e t' =>
      by_cases hde : p d && p e
      · rw [show collapseRuns p r (d :: e :: t') = collapseRuns p r (e :: t') by
          simp [collapseRuns, hde]] at h
        rcases ih h with h1 | h2
        · exact Or.inl h1
        · exact Or.inr ⟨by simp [h2.1], h2.2⟩
      · rw [show collapseRuns p r (d :: e :: t') =
            (if p d then r else d) :: collapseRuns p r (e :: t') by
          simp [collapseRuns, hde]] at h
        rcases List.mem_cons.mp h with h1 | h2
        · by_cases hd : p d
          · simp [hd] at h1
            exact Or.inl h1
          · simp [hd] at h1
            exact Or.inr ⟨by simp [h1], h1 ▸ (by simpa using hd)⟩
        · rcases ih h2 with h3 | h4
          · exact Or.inl h3
          · exact Or.inr ⟨by simp [h4.1], h4.2⟩

theorem collapseRuns_head (p : Char → Bool) (r : Char) :
    ∀ (t : List Char) (d : Char), ∃ t',
      collapseRuns p r (d :: t) = (if p d then r else d) :: t' := by
  intro t
  induction t with
  | nil => intro d; exact ⟨[], by cases hd : p d <;> simp [collapseRuns, hd]⟩
  | cons e t' ih =>
    intro d
    by_cases hde : p d && p e
    · obtain ⟨t'', ht''⟩ := ih e
      refine ⟨t'', ?_⟩
      rw [show collapseRuns p r (d :: e :: t') = collapseRuns p r (e :: t') by
        simp [collapseRuns, hde], ht'']
      rw [Bool.and_eq_true] at hde
      rw [if_pos hde.1, if_pos hde.2]
    · exact ⟨collapseRuns p r (e :: t'), by simp [collapseRuns, hde]⟩

/-- The no-adjacent-hyphens relation: the shape of the output of the
hyphen-run collapse. -/
def NoHH (a b : Char) : Prop := ¬(a = '-' ∧ b = '-')

theorem noHH_flip : flip NoHH = NoHH := by
  funext a b
  unfold flip NoHH
  exact propext ⟨fun h hc => h ⟨hc.2, hc.1⟩, fun h hc => h ⟨hc.2, hc.1⟩⟩

theorem chain'_noHH_reverse {l : List Char} (h : List.Chain' NoHH l) :
    List.Chain' NoHH l.reverse := by
  rw [List.chain'_reverse, noHH_flip]
  exact h

theorem chain'_noHH_stripEnds {p : Char → Bool} {l : List Char}
    (h : List.Chain' NoHH l) : List.Chain' NoHH (stripEnds p l) := by
  unfold stripEnds
  exact chain'_noHH_reverse
    (((chain'_noHH_reverse (h.suffix (List.dropWhile_suffix p))).suffix
      (List.dropWhile_suffix p)))

theorem chain'_collapseRuns_hyphen :
    ∀ l : List Char, List.Chain' NoHH (collapseRuns (· == '-') '-' l) := by
  intro l
  induction l with
  | nil => simp [collapseRuns]
  | cons c t ih =>
    cases t with
    | nil =>
      by_cases hc : c == '-' <;> simp [collapseRuns, hc]
    | cons d t' =>
      by_cases hcd : (c == '-') && (d == '-')
      · rw [show collapseRuns (· == '-') '-' (c :: d :: t') =
            collapseRuns (· == '-') '-' (d :: t') by simp [collapseRuns, hcd]]
        exact ih
      · rw [show collapseRuns (· == '-') '-' (c :: d :: t') =
            (if c == '-' then '-' else c) :: collapseRuns (· == '-') '-' (d :: t') by
          simp [collapseRuns, hcd]]
        obtain ⟨t'', ht''⟩ := collapseRuns_head (· == '-') '-' t' d
        rw [ht'']
        rw [ht''] at ih
        refine List.chain'_cons.mpr ⟨?_, ih⟩
        by_cases hc : c == '-'
        · have hd : (d == '-') = false := by
            cases hd' : (d == '-')
            · rfl
            · exact absurd (by simp [hc, hd']) hcd
          rw [if_pos hc, if_neg (by simp [hd])]
          intro hcon
          rw [hcon.2] at hd
          simp at hd
        · rw [if_neg hc]
          intro hcon
          rw [hcon.1] at hc
          simp at hc

theorem collapseRuns_hyphen_eq_self :
    ∀ {l : List Char}, List.Chain' NoHH l → collapseRuns (· == '-') '-' l = l := by
  intro l
  induction l with
  | nil => intro _; rfl
  | cons c t ih =>
    intro h
    cases t with
    | nil =>
      by_cases hc : c == '-'
      · have : c = '-' := by simpa using hc
        simp [collapseRuns, hc, this]
      · simp [collapseRuns, hc]
    | cons d t' =>
      have hR : NoHH c d := (List.chain'_cons.mp h).1
      have htail : List.Chain' NoHH (d :: t') := (List.chain'_cons.mp h).2
      have hcd : ((c == '-') && (d == '-')) = false := by
        cases hc : c == '-'
        · rfl
        · cases hd : d == '-'
          · rfl
          · exact absurd ⟨by simpa using hc, by simpa using hd⟩ hR
      rw [show collapseRuns (· == '-') '-' (c :: d :: t') =
          (if c == '-' then '-' else c) :: collapseRuns (· == '-') '-' (d :: t') by
        simp [collapseRuns, hcd]]
      rw [ih htail]
      by_cases hc : c == '-'
      · have : c = '-' := by simpa using hc
        rw [if_pos hc, this]
      · rw [if_neg hc]

theorem mem_dropWhile_sub {p : Char → Bool} {l : List Char} {c : Char}
    (h : c ∈ l.dropWhile p) : c ∈ l := by
  obtain ⟨t, ht⟩ := List.dropWhile_suffix (l := l) p
  rw [← ht]
  exact List.mem_append.mpr (Or.inr h)

theorem mem_stripEnds {p : Char → Bool} {l : List Char} {c : Char}
    (h : c ∈ stripEnds p l) : c ∈ l := by
  unfold stripEnds at h
  rw [List.mem_reverse] at h
  have h2 := mem_dropWhile_sub h
  rw [List.mem_reverse] at h2
  exact mem_dropWhile_sub h2

theorem map_eq_self_of {f : Char → Char} {l : List Char}
    (h : ∀ a ∈ l, f a = a) : l.map f = l := by
  rw [List.map_congr_left h]
  simp

/-- Classification of the characters of a normalizer output: each is a
hyphen or a kept, non-whitespace character fixed by lowercasing. -/
theorem mem_normalizeCore {l : List Char} {c : Char} (h : c ∈ normalizeCore l) :
    c = '-' ∨ (keepChar c = true ∧ pyIsSpace c = false ∧ c.toLower = c) := by
  unfold normalizeCore at h
  have h1 := mem_stripEnds h
  rcases mem_collapseRuns h1 with h2 | ⟨h3, h4⟩
  · exact Or.inl h2
  · rcases mem_collapseRuns h3 with h5 | ⟨h6, h7⟩
    · rw [h5] at h4
      simp at h4
    · right
      have hk : keepChar c = true := List.mem_filter.mp h6 |>.2
      have hm : c ∈ (l.map Char.toLower) := List.mem_filter.mp h6 |>.1
      obtain ⟨d, _, hd⟩ := List.mem_map.mp hm
      exact ⟨hk, h7, by rw [← hd, toLower_toLower]⟩

theorem normalizeCore_idem (l : List Char) :
    normalizeCore (normalizeCore l) = normalizeCore l := by
  have hmem := fun c (hc : c ∈ normalizeCore l) => mem_normalizeCore hc
  have hmap : (normalizeCore l).map Char.toLower = normalizeCore l := by
    apply map_eq_self_of
    intro a ha
    rcases hmem a ha with h | h
    · rw [h]; decide
    · exact h.2.2
  have hfilter : (normalizeCore l).filter keepChar = normalizeCore l := by
    apply List.filter_eq_self.mpr
    intro a ha
    rcases hmem a ha with h | h
    · rw [h]; decide
    · exact h.1
  have hws : collapseRuns pyIsSpace '-' (normalizeCore l) = normalizeCore l := by
    apply collapseRuns_eq_self
    intro a ha
    rcases hmem a ha with h | h
    · rw [h]; decide
    · exact h.2.1
  have hchain : List.Chain' NoHH (normalizeCore l) := by
    unfold normalizeCore
    exact chain'_noHH_stripEnds (chain'_collapseRuns_hyphen _)
  have hhy : collapseRuns (· == '-') '-' (normalizeCore l) = normalizeCore l :=
    collapseRuns_hyphen_eq_self hchain
  have hstrip : stripEnds (· == '-') (normalizeCore l) = normalizeCore l := by
    unfold normalizeCore
    exact stripEnds_idem _ _
  calc normalizeCore (normalizeCore l)
      = stripEnds (· == '-') (collapseRuns (· == '-') '-'
          (collapseRuns pyIsSpace '-'
            (((normalizeCore l).map Char.toLower).filter keepChar))) := rfl
    _ = normalizeCore l := by rw [hmap, hfilter, hws, hhy, hstrip]

/-- C8: the normalizer is idempotent: applying normalize_id to any of its
outputs returns it unchanged, i.e. normalize_id (normalize_id x) =
normalize_id x for every string x. -/
theorem claim_C8_normalize_id_idempotent (s : String) :
    normalize_id (normalize_id s) = normalize_id s := by
  unfold normalize_id
  rw [asString_toList, normalizeCore_idem]

/-- C3: normalize_id performs exactly, in order: lowercase; strip every
character that is not a word character, whitespace, or hyphen; collapse
each whitespace run into a single hyphen; collapse each hyphen run into a
single hyphen; trim leading and trailing hyphens — and on the given
examples, normalize_id "Hello, World!" = "hello-world" and
normalize_id "---" = "". -/
theorem claim_C3_normalizer_pipeline :
    (∀ s : String, normalize_id s =
      (stripEnds (· == '-')
        (collapseRuns (· == '-') '-'
          (collapseRuns pyIsSpace '-'
            ((s.toList.map Char.toLower).filter keepChar)))).asString) ∧
    normalize_id "Hello, World!" = "hello-world" ∧
    normalize_id "---" = "" := by
  refine ⟨fun s => rfl, by decide, by decide⟩

/-- C9: the anchor extractor can add the empty identifier: comma-truncation
plus trimming of the explicit forms in texts such as one containing only
the double-bracket anchor with a blank id before the comma yields the empty
string, which is added; heading-derived empty identifiers, by contrast, are
discarded. -/
theorem claim_C9_explicit_empty_anchor :
    ("" : String) ∈ extract_section_ids "[[ ,Title]]".toList ∧
    ("" : String) ∈ extract_section_ids "[[,Title]]".toList ∧
    extract_section_ids "[[ ,Title]]".toList = {""} ∧
    extract_section_ids "= !!!".toList = ∅ :=
  ⟨by decide, by decide, by decide, by decide⟩

/-!
### Scan combinator lemmas
-/

theorem scanMatchesA_skip (m : List Char → Option (List Char × Nat)) :
    ∀ (k : Nat) (cs : List Char),
      scanMatchesA m k cs = scanMatchesA m 0 (cs.drop k) := by
  intro k
  induction k with
  | zero => intro cs; rfl
  | succ k ih =>
    intro cs
    cases cs with
    | nil => rfl
    | cons c cs' =>
      show scanMatchesA m k cs' = _
      rw [ih cs']
      rfl

theorem scanMatches_cons (m : List Char → Option (List Char × Nat))
    (c : Char) (cs : List Char) :
    scanMatches m (c :: cs) =
      match m (c :: cs) with
      | some (g, k) => g :: scanMatches m (cs.drop k)
      | none => scanMatches m cs := by
  show scanMatchesA m 0 (c :: cs) = _
  cases hm : m (c :: cs) with
  | none => simp [scanMatchesA, hm, scanMatches]
  | some gk =>
    obtain ⟨g, k⟩ := gk
    simp [scanMatchesA, hm, scanMatches, scanMatchesA_skip]

theorem subScanA_skip (rep : List Char → List Char)
    (m : List Char → Option (List Char × Nat)) :
    ∀ (k : Nat) (cs : List Char),
      subScanA rep m k cs = subScanA rep m 0 (cs.drop k) := by
  intro k
  induction k with
  | zero => intro cs; rfl
  | succ k ih =>
    intro cs
    cases cs with
    | nil => rfl
    | cons c cs' =>
      show subScanA rep m k cs' = _
      rw [ih cs']
      rfl

theorem subScan_cons (rep : List Char → List Char)
    (m : List Char → Option (List Char × Nat)) (c : Char) (cs : List Char) :
    subScan rep m (c :: cs) =
      match m (c :: cs) with
      | some (g, k) => rep g ++ subScan rep m (cs.drop k)
      | none => c :: subScan rep m cs := by
  show subScanA rep m 0 (c :: cs) = _
  cases hm : m (c :: cs) with
  | none => simp [subScanA, hm, subScan]
  | some gk =>
    obtain ⟨g, k⟩ := gk
    simp [subScanA, hm, subScan, subScanA_skip]

theorem scanMatches_append_of_none {m : List Char → Option (List Char × Nat)}
    {p : List Char} (u : List Char)
    (hp : ∀ c ∈ p, ∀ t, m (c :: t) = none) :
    scanMatches m (p ++ u) = scanMatches m u := by
  induction p with
  | nil => rfl
  | cons c p' ih =>
    rw [List.cons_append, scanMatches_cons,
      hp c (by simp) (p' ++ u)]
    exact ih (fun d hd t => hp d (by simp [hd]) t)

theorem subScan_append_of_none {rep : List Char → List Char}
    {m : List Char → Option (List Char × Nat)}
    {p : List Char} (u : List Char)
    (hp : ∀ c ∈ p, ∀ t, m (c :: t) = none) :
    subScan rep m (p ++ u) = p ++ subScan rep m u := by
  induction p with
  | nil => rfl
  | cons c p' ih =>
    rw [List.cons_append, subScan_cons, hp c (by simp) (p' ++ u)]
    rw [ih (fun d hd t => hp d (by simp [hd]) t)]
    rfl

theorem mem_scanMatchesA {m : List Char → Option (List Char × Nat)}
    {g : List Char} :
    ∀ {l : List Char} {s : Nat}, g ∈ scanMatchesA m s l →
      ∃ t k, m t = some (g, k) := by
  intro l
  induction l with
  | nil => intro s h; simp [scanMatchesA] at h
  | cons c cs ih =>
    intro s h
    cases s with
    | succ s' => exact ih h
    | zero =>
      revert h
      show g ∈ (match m (c :: cs) with
        | some (g', k) => g' :: scanMatchesA m k cs
        | none => scanMatchesA m 0 cs) → _
      cases hm : m (c :: cs) with
      | none => exact fun h => ih h
      | some gk =>
        obtain ⟨g', k⟩ := gk
        intro h
        rcases List.mem_cons.mp h with h1 | h2
        · exact ⟨c :: cs, k, by rw [hm, h1]⟩
        · exact ih h2

theorem mem_scanMatches {m : List Char → Option (List Char × Nat)}
    {g l : List Char} (h : g ∈ scanMatches m l) : ∃ t k, m t = some (g, k) :=
  mem_scanMatchesA h

/-!
### Matcher-specific lemmas
-/

theorem mBB_none {c : Char} (h : c ≠ '[') (t : List Char) : mBB (c :: t) = none := by
  rw [mBB.eq_def]
  split
  · rename_i rest heq
    simp at heq
    exact absurd heq.1 h
  · rfl

theorem mHash_none {c : Char} (h : c ≠ '[') (t : List Char) :
    mHash (c :: t) = none := by
  rw [mHash.eq_def]
  split
  · rename_i rest heq
    simp at heq
    exact absurd heq.1 h
  · rfl

theorem mBold_none {c : Char} (h : c ≠ '*') (t : List Char) :
    mBold (c :: t) = none := by
  rw [mBold.eq_def]
  split
  · rename_i rest heq
    simp at heq
    exact absurd heq.1 h
  · rename_i rest heq
    simp at heq
    exact absurd heq.1 h
  · rfl

theorem mItal_none {c : Char} (h : c ≠ '_') (t : List Char) :
    mItal (c :: t) = none := by
  rw [mItal.eq_def]
  split
  · rename_i rest heq
    simp at heq
    exact absurd heq.1 h
  · rename_i rest heq
    simp at heq
    exact absurd heq.1 h
  · rfl

theorem mTick_none {c : Char} (h : c ≠ tickChar) (t : List Char) :
    mTick (c :: t) = none := by
  show (if c = tickChar then _ else none) = none
  rw [if_neg h]

theorem mUrl_none {c : Char} (h : c ≠ 'h') (t : List Char) :
    mUrl (c :: t) = none := by
  rw [mUrl.eq_def]
  split
  · rename_i rest heq
    simp at heq
    exact absurd heq.1 h
  · rename_i rest heq
    simp at heq
    exact absurd heq.1 h
  · rfl

theorem mLink_none {c : Char} (h : c ≠ 'l') (t : List Char) :
    mLink (c :: t) = none := by
  rw [mLink.eq_def]
  split
  · rename_i rest heq
    simp at heq
    exact absurd heq.1 h
  · rfl

theorem mXref_group {l g : List Char} {k : Nat} (h : mXref l = some (g, k)) :
    g ≠ [] ∧ ∀ c ∈ g, isIdChar c = true := by
  rw [mXref.eq_def] at h
  split at h
  · rename_i rest
    simp only [] at h
    split at h
    · exact absurd h (by simp)
    · rename_i hne
      have hg : g = rest.takeWhile isIdChar := by
        split at h <;> (try split at h) <;>
          exact ((Prod.mk.injEq _ _ _ _).mp (Option.some.inj h)).1.symm
      constructor
      · rw [hg]
        simpa [List.isEmpty_iff] using hne
      · intro ch hch
        rw [hg] at hch
        exact List.mem_takeWhile_imp hch
  · exact absurd h (by simp)

theorem mAngle_group {l g : List Char} {k : Nat} (h : mAngle l = some (g, k)) :
    g ≠ [] ∧ ∀ c ∈ g, isIdChar c = true := by
  rw [mAngle.eq_def] at h
  split at h
  · rename_i rest
    simp only [] at h
    split at h
    · exact absurd h (by simp)
    · rename_i hne
      have hg : g = rest.takeWhile isIdChar := by
        split at h <;> (try split at h) <;>
          first
          | exact ((Prod.mk.injEq _ _ _ _).mp (Option.some.inj h)).1.symm
          | cases h
      constructor
      · rw [hg]
        simpa [List.isEmpty_iff] using hne
      · intro ch hch
        rw [hg] at hch
        exact List.mem_takeWhile_imp hch
  · exact absurd h (by simp)

/-!
### Merge-phase lemmas (the resolver in main)
-/

theorem mem_allSectionIdKeys {c : List Document} {id : String} :
    id ∈ allSectionIdKeys c ↔ ∃ r ∈ corpusResults c, id ∈ r.section_ids := by
  unfold allSectionIdKeys corpusResults
  induction c with
  | nil => simp
  | cons d c' ih => simp_all

theorem mem_allSectionIdFiles {c : List Document} {id q : String} :
    q ∈ allSectionIdFiles c id ↔
      ∃ r ∈ corpusResults c, r.file_path = q ∧ id ∈ r.section_ids := by
  unfold allSectionIdFiles corpusResults
  induction c with
  | nil => simp
  | cons d c' ih =>
    simp only [List.map_cons, List.foldr_cons]
    by_cases hd : id ∈ (analyze_file d).section_ids
    · rw [if_pos hd]
      simp only [Finset.mem_insert, ih]
      constructor
      · rintro (rfl | ⟨r, hr, h1, h2⟩)
        · exact ⟨analyze_file d, by simp, rfl, hd⟩
        · exact ⟨r, by simp [hr], h1, h2⟩
      · rintro ⟨r, hr, h1, h2⟩
        rcases List.mem_cons.mp hr with rfl | hr'
        · exact Or.inl h1.symm
        · exact Or.inr ⟨r, hr', h1, h2⟩
    · rw [if_neg hd]
      rw [ih]
      constructor
      · rintro ⟨r, hr, h1, h2⟩
        exact ⟨r, by simp [hr], h1, h2⟩
      · rintro ⟨r, hr, h1, h2⟩
        rcases List.mem_cons.mp hr with rfl | hr'
        · exact absurd h2 hd
        · exact ⟨r, hr', h1, h2⟩

theorem mem_allXrefs {c : List Document} {x : XRefInfo} :
    x ∈ allXrefs c ↔ ∃ r ∈ corpusResults c, x ∈ r.xrefs := by
  unfold allXrefs corpusResults
  induction c with
  | nil => simp
  | cons d c' ih => simp_all

/-- C1: for every merged run, a reference is reported broken iff its target
identifier is not a key of the merged global anchor index; and an
identifier is a key of that index exactly when some scanned document —
any document of the corpus — defines a matching anchor, so a reference in
one document resolves against an anchor defined in any other. -/
theorem claim_C1_broken_iff_not_key :
    (∀ (c : List Document) (x : XRefInfo),
      x ∈ brokenXrefs c ↔ x ∈ allXrefs c ∧ x.xref_id ∉ allSectionIdKeys c) ∧
    (∀ (c : List Document) (id : String),
      id ∈ allSectionIdKeys c ↔
        ∃ d ∈ c, ∃ t : String, d.2 = some t ∧
          id ∈ extract_section_ids t.toList) := by
  constructor
  · intro c x
    unfold brokenXrefs
    rw [List.mem_filter]
    simp
  · intro c id
    rw [mem_allSectionIdKeys]
    constructor
    · rintro ⟨r, hr, hid⟩
      obtain ⟨d, hd, rfl⟩ := List.mem_map.mp hr
      obtain ⟨p, oc⟩ := d
      cases oc with
      | none => simp [analyze_file] at hid
      | some t =>
        exact ⟨(p, some t), hd, t, rfl, by simpa [analyze_file] using hid⟩
    · rintro ⟨d, hd, t, ht, hid⟩
      refine ⟨analyze_file d, List.mem_map.mpr ⟨d, hd, rfl⟩, ?_⟩
      obtain ⟨p, oc⟩ := d
      simp only at ht
      subst ht
      simpa [analyze_file] using hid

/-- C6: an identifier is reported as a duplicate iff its set of defining
documents has size greater than 1; that set lists exactly the paths of the
documents defining the identifier; and an identifier all of whose
definitions lie in a single document is never reported as a cross-file
duplicate. -/
theorem claim_C6_duplicate_report :
    (∀ (c : List Document) (id : String),
      id ∈ duplicateIds c ↔
        id ∈ allSectionIdKeys c ∧ 1 < (allSectionIdFiles c id).card) ∧
    (∀ (c : List Document) (id q : String),
      q ∈ allSectionIdFiles c id ↔
        ∃ r ∈ corpusResults c, r.file_path = q ∧ id ∈ r.section_ids) ∧
    (∀ (c : List Document) (id p : String),
      (∀ r ∈ corpusResults c, id ∈ r.section_ids → r.file_path = p) →
        id ∉ duplicateIds c) := by
  refine ⟨fun c id => Finset.mem_filter, fun c id q => mem_allSectionIdFiles, ?_⟩
  intro c id p hp hdup
  have hsub : allSectionIdFiles c id ⊆ {p} := by
    intro q hq
    obtain ⟨r, hr, hq1, hq2⟩ := mem_allSectionIdFiles.mp hq
    rw [Finset.mem_singleton, ← hq1]
    exact hp r hr hq2
  have hcard := Finset.card_le_card hsub
  rw [Finset.card_singleton] at hcard
  have h2 := (Finset.mem_filter.mp hdup).2
  omega

/-- C7: a document whose read fails contributes an error message, an empty
anchor set and an empty reference list, and the per-document results of
every other document of the run are unchanged by its presence. -/
theorem claim_C7_failure_isolated (p : String) (pre post : List Document) :
    analyze_file (p, none) = ⟨p, ∅, [], ["Error reading " ++ p]⟩ ∧
    corpusResults (pre ++ (p, none) :: post) =
      corpusResults pre ++ analyze_file (p, none) :: corpusResults post :=
  ⟨rfl, by simp [corpusResults]⟩

/-!
### Heading-washout lemmas

The section-header pattern is compiled with re.MULTILINE, so its greedy \s+
may cross a line break: a heading line can then be captured as a whole
(equals marker included) by a match that started on an earlier line.  The
lemmas below show that the marker and the surrounding whitespace wash out
of the auto-generated identifier, so such a line still contributes the same
identifier as a direct match.
-/

/-- Drop characters satisfying p from the end of a list. -/
def dropTrail (p : Char → Bool) (l : List Char) : List Char :=
  (l.reverse.dropWhile p).reverse

theorem stripEnds_eq_dropTrail (p : Char → Bool) (l : List Char) :
    stripEnds p l = dropTrail p (l.dropWhile p) := rfl

theorem dropTrail_append {p : Char → Bool} {A B : List Char}
    (h : dropTrail p B ≠ []) : dropTrail p (A ++ B) = A ++ dropTrail p B := by
  unfold dropTrail at *
  rw [List.reverse_append, List.dropWhile_append]
  have hne : (B.reverse.dropWhile p).isEmpty = false := by
    cases hbe : (B.reverse.dropWhile p).isEmpty
    · rfl
    · rw [List.isEmpty_iff] at hbe
      rw [hbe] at h
      exact absurd rfl h
  rw [if_neg (by simp [hne]), List.reverse_append, List.reverse_reverse]

theorem pyIsSpace_cases {c : Char} (hw : pyIsSpace c = true) :
    c = ' ' ∨ c = '\t' ∨ c = '\n' ∨ c = '\r' ∨ c = '\x0b' ∨ c = '\x0c' := by
  simp only [pyIsSpace, Bool.or_eq_true, beq_iff_eq] at hw
  tauto

theorem prefix_char_facts {c : Char} (hc : c = '=' ∨ pyIsSpace c = true) :
    c ≠ '[' ∧ c ≠ '*' ∧ c ≠ '_' ∧ c ≠ tickChar ∧ c ≠ 'h' ∧ c ≠ 'l' := by
  rcases hc with rfl | hw
  · exact ⟨by decide, by decide, by decide, by decide, by decide, by decide⟩
  · rcases pyIsSpace_cases hw with rfl | rfl | rfl | rfl | rfl | rfl <;>
      exact ⟨by decide, by decide, by decide, by decide, by decide, by decide⟩

theorem cleanHeader_append_prefix {pfx u : List Char}
    (hp : ∀ c ∈ pfx, c = '=' ∨ pyIsSpace c = true) :
    cleanHeader (pfx ++ u) = pfx ++ cleanHeader u := by
  unfold cleanHeader
  rw [subScan_append_of_none u
    (fun c hc t => mBB_none (prefix_char_facts (hp c hc)).1 t)]
  rw [subScan_append_of_none _
    (fun c hc t => mHash_none (prefix_char_facts (hp c hc)).1 t)]
  rw [subScan_append_of_none _
    (fun c hc t => mBold_none (prefix_char_facts (hp c hc)).2.1 t)]
  rw [subScan_append_of_none _
    (fun c hc t => mItal_none (prefix_char_facts (hp c hc)).2.2.1 t)]
  rw [subScan_append_of_none _
    (fun c hc t => mTick_none (prefix_char_facts (hp c hc)).2.2.2.1 t)]
  rw [subScan_append_of_none _
    (fun c hc t => mUrl_none (prefix_char_facts (hp c hc)).2.2.2.2.1 t)]
  rw [subScan_append_of_none _
    (fun c hc t => mLink_none (prefix_char_facts (hp c hc)).2.2.2.2.2 t)]

theorem toLower_fix_of_prefix_char {c : Char} (hc : c = '=' ∨ pyIsSpace c = true) :
    c.toLower = c := by
  rcases hc with rfl | hw
  · decide
  · rcases pyIsSpace_cases hw with rfl | rfl | rfl | rfl | rfl | rfl <;> decide

theorem stripEnds_ch_cons_hyphen (y : List Char) :
    stripEnds (· == '-') (collapseRuns (· == '-') '-' ('-' :: y)) =
    stripEnds (· == '-') (collapseRuns (· == '-') '-' y) := by
  rw [collapseRuns_cons_of_pos (by decide) y]
  unfold stripEnds
  rw [List.dropWhile_cons_of_pos (by decide)]
  have hG : (collapseRuns (· == '-') '-' (y.dropWhile (· == '-'))).dropWhile (· == '-') =
      (collapseRuns (· == '-') '-' y).dropWhile (· == '-') := by
    cases y with
    | nil => rfl
    | cons e y' =>
      by_cases he : (e == '-') = true
      · rw [List.dropWhile_cons_of_pos (p := (· == '-')) he,
          collapseRuns_cons_of_pos (p := (· == '-')) he y',
          List.dropWhile_cons_of_pos (p := (· == '-'))
            (by decide : (('-' : Char) == '-') = true)]
      · rw [List.dropWhile_cons_of_neg (p := (· == '-')) (by simp_all)]
  rw [hG]

theorem normalizeCore_prefix {eqs w v : List Char}
    (he : ∀ c ∈ eqs, c = '=') (hw : ∀ c ∈ w, pyIsSpace c = true) :
    normalizeCore (eqs ++ (w ++ v)) = normalizeCore v := by
  unfold normalizeCore
  rw [List.map_append, List.map_append, List.filter_append, List.filter_append]
  rw [map_eq_self_of (fun a ha => toLower_fix_of_prefix_char (Or.inl (he a ha)))]
  rw [map_eq_self_of (fun a ha => toLower_fix_of_prefix_char (Or.inr (hw a ha)))]
  rw [show eqs.filter keepChar = [] from
    List.filter_eq_nil_iff.mpr (fun a ha => by rw [he a ha]; decide)]
  rw [show w.filter keepChar = w from
    List.filter_eq_self.mpr (fun a ha => by simp [keepChar, hw a ha])]
  rw [List.nil_append]
  have key : ∀ x : List Char,
      stripEnds (· == '-') (collapseRuns (· == '-') '-'
        ('-' :: collapseRuns pyIsSpace '-' (x.dropWhile pyIsSpace))) =
      stripEnds (· == '-') (collapseRuns (· == '-') '-'
        (collapseRuns pyIsSpace '-' x)) := by
    intro x
    cases x with
    | nil => decide
    | cons d x' =>
      by_cases hd : pyIsSpace d = true
      · rw [List.dropWhile_cons_of_pos (p := pyIsSpace) hd,
          collapseRuns_cons_of_pos (p := pyIsSpace) hd]
      · rw [List.dropWhile_cons_of_neg (p := pyIsSpace) (by simp [hd])]
        exact stripEnds_ch_cons_hyphen _
  cases w with
  | nil => rfl
  | cons wc w' =>
    have hwc : pyIsSpace wc = true := hw wc (by simp)
    have hw' : ∀ c ∈ w', pyIsSpace c = true := fun c hc => hw c (by simp [hc])
    rw [List.cons_append, collapseRuns_cons_of_pos (p := pyIsSpace) hwc,
      List.dropWhile_append_of_pos hw']
    exact key _

theorem pyStrip_heading_decomp {line tl : List Char} (hline : line = '=' :: tl)
    (hu : pyStrip (line.dropWhile (· == '=')) ≠ []) :
    pyStrip line =
      line.takeWhile (· == '=') ++
        ((line.dropWhile (· == '=')).takeWhile pyIsSpace ++
          pyStrip (line.dropWhile (· == '='))) := by
  have h1 : pyStrip (line.dropWhile (· == '=')) =
      dropTrail pyIsSpace ((line.dropWhile (· == '=')).dropWhile pyIsSpace) := rfl
  have h2 : dropTrail pyIsSpace (line.dropWhile (· == '=')) =
      (line.dropWhile (· == '=')).takeWhile pyIsSpace ++
        pyStrip (line.dropWhile (· == '=')) := by
    conv_lhs => rw [← List.takeWhile_append_dropWhile pyIsSpace
      (line.dropWhile (· == '='))]
    rw [dropTrail_append (by rw [← h1]; exact hu), ← h1]
  have h3 : pyStrip line = dropTrail pyIsSpace line := by
    show dropTrail pyIsSpace (line.dropWhile pyIsSpace) = _
    rw [hline, List.dropWhile_cons_of_neg (p := pyIsSpace) (by decide)]
  rw [h3]
  conv_lhs => rw [← List.takeWhile_append_dropWhile (· == '=') line]
  rw [dropTrail_append (by
    rw [h2]
    intro hc
    exact hu (List.append_eq_nil.mp hc).2), h2]

theorem headingId_nil_of_strip_nil {r : List Char} (h : pyStrip r = []) :
    headingId r = [] := by
  unfold headingId
  rw [h]
  rfl

theorem headingId_heading_washout {line tl : List Char} (hline : line = '=' :: tl) :
    headingId line = headingId (line.dropWhile (· == '=')) ∨
      headingId (line.dropWhile (· == '=')) = [] := by
  by_cases hu : pyStrip (line.dropWhile (· == '=')) = []
  · exact Or.inr (headingId_nil_of_strip_nil hu)
  · left
    unfold headingId
    rw [pyStrip_heading_decomp hline hu]
    have he : ∀ c ∈ line.takeWhile (· == '='), c = '=' := fun c hc => by
      have := List.mem_takeWhile_imp hc
      simpa using this
    have hw : ∀ c ∈ (line.dropWhile (· == '=')).takeWhile pyIsSpace,
        pyIsSpace c = true := fun c hc => List.mem_takeWhile_imp hc
    rw [← List.append_assoc,
      cleanHeader_append_prefix (fun c hc => by
        rcases List.mem_append.mp hc with h1 | h2
        · exact Or.inl (he c h1)
        · exact Or.inr (hw c h2)),
      List.append_assoc, normalizeCore_prefix he hw]

theorem headingId_dropWhile_ws (r : List Char) :
    headingId (r.dropWhile pyIsSpace) = headingId r := by
  unfold headingId
  have h : pyStrip (r.dropWhile pyIsSpace) = pyStrip r := by
    unfold pyStrip stripEnds
    rw [dropWhile_dropWhile]
  rw [h]

theorem headingId_nil_of_all_ws {r : List Char} (h : r.all pyIsSpace = true) :
    headingId r = [] := by
  apply headingId_nil_of_strip_nil
  show stripEnds pyIsSpace r = []
  unfold stripEnds
  have hnil : List.dropWhile pyIsSpace r = [] :=
    List.dropWhile_eq_nil_iff.mpr (List.all_eq_true.mp h)
  rw [hnil]
  rfl

theorem findHeadingsA_true_cons (l0 : List Char) (rest : List (List Char)) :
    findHeadingsA true (l0 :: rest) =
      if (l0.dropWhile pyIsSpace).isEmpty then findHeadingsA true rest
      else l0.dropWhile pyIsSpace :: findHeadingsA false rest := rfl

theorem findHeadingsA_false_cons (l0 : List Char) (rest : List (List Char)) :
    findHeadingsA false (l0 :: rest) =
      if l0.headD ' ' = '=' then
        if (l0.dropWhile (· == '=')).all pyIsSpace then findHeadingsA true rest
        else if pyIsSpace ((l0.dropWhile (· == '=')).headD 'x') then
          (l0.dropWhile (· == '=')).dropWhile pyIsSpace :: findHeadingsA false rest
        else findHeadingsA false rest
      else findHeadingsA false rest := rfl

/-- Every line of heading form — an equals-run followed by whitespace —
contributes its washed-out identifier to the header scan, whichever state
the scan is in when it reaches the line (a preceding cross-line match may
consume the line whole; the marker then washes out of the identifier). -/
theorem headingId_mem_findHeadingsA :
    ∀ (L : List (List Char)) (st : Bool) (line tl : List Char),
      line ∈ L → line = '=' :: tl →
      pyIsSpace ((line.dropWhile (· == '=')).headD 'x') = true →
      headingId (line.dropWhile (· == '=')) ≠ [] →
      headingId (line.dropWhile (· == '=')) ∈
        (findHeadingsA st L).map headingId := by
  intro L
  induction L with
  | nil => intro st line tl h; simp at h
  | cons l0 rest ih =>
    intro st line tl hmem hline hsp hne
    rcases List.mem_cons.mp hmem with heq0 | hmem'
    · subst heq0
      cases st with
      | true =>
        have hg : line.dropWhile pyIsSpace = line := by
          rw [hline, List.dropWhile_cons_of_neg (p := pyIsSpace) (by decide)]
        rw [findHeadingsA_true_cons, hg, if_neg (by rw [hline]; simp),
          List.map_cons]
        rcases headingId_heading_washout hline with hwash | hnil
        · exact List.mem_cons.mpr (Or.inl hwash.symm)
        · exact absurd hnil hne
      | false =>
        have hhead : line.headD ' ' = '=' := by rw [hline]; rfl
        by_cases hall : (line.dropWhile (· == '=')).all pyIsSpace
        · exact absurd (headingId_nil_of_all_ws hall) hne
        · rw [findHeadingsA_false_cons, if_pos hhead, if_neg hall, if_pos hsp,
            List.map_cons]
          exact List.mem_cons.mpr (Or.inl (headingId_dropWhile_ws _).symm)
    · cases st with
      | true =>
        by_cases hg0 : (l0.dropWhile pyIsSpace).isEmpty
        · rw [findHeadingsA_true_cons, if_pos hg0]
          exact ih true line tl hmem' hline hsp hne
        · rw [findHeadingsA_true_cons, if_neg hg0, List.map_cons]
          exact List.mem_cons.mpr (Or.inr (ih false line tl hmem' hline hsp hne))
      | false =>
        by_cases hh : l0.headD ' ' = '='
        · by_cases hall : (l0.dropWhile (· == '=')).all pyIsSpace
          · rw [findHeadingsA_false_cons, if_pos hh, if_pos hall]
            exact ih true line tl hmem' hline hsp hne
          · by_cases hws0 : pyIsSpace ((l0.dropWhile (· == '=')).headD 'x')
            · rw [findHeadingsA_false_cons, if_pos hh, if_neg hall, if_pos hws0,
                List.map_cons]
              exact List.mem_cons.mpr
                (Or.inr (ih false line tl hmem' hline hsp hne))
            · rw [findHeadingsA_false_cons, if_pos hh, if_neg hall, if_neg hws0]
              exact ih false line tl hmem' hline hsp hne
        · rw [findHeadingsA_false_cons, if_neg hh]
          exact ih false line tl hmem' hline hsp hne

/-!
### Bracket-anchor completeness
-/

theorem mBB_at_match (s b : List Char) (hs : s ≠ []) (hsb : ']' ∉ s) :
    mBB ('[' :: '[' :: (s ++ ']' :: ']' :: b)) = some (s, s.length + 3) := by
  have htw : List.takeWhile (· ≠ ']') (s ++ ']' :: ']' :: b) = s := by
    rw [List.takeWhile_append_of_pos (fun c hc => by
      simp only [decide_eq_true_eq]
      intro he
      exact hsb (he ▸ hc))]
    rw [List.takeWhile_cons_of_neg (by simp)]
    simp
  simp only [mBB]
  rw [htw, if_neg (by simp [List.isEmpty_iff, hs]), List.drop_left]
  rfl

theorem scanMatches_mBB_complete :
    ∀ (a s b : List Char), '[' ∉ a → s ≠ [] → ']' ∉ s →
      s ∈ scanMatches mBB (a ++ '[' :: '[' :: (s ++ ']' :: ']' :: b)) := by
  intro a
  induction a with
  | nil =>
    intro s b _ hs hsb
    rw [List.nil_append, scanMatches_cons, mBB_at_match s b hs hsb]
    exact List.mem_cons_self _ _
  | cons c a' ih =>
    intro s b ha hs hsb
    have hc : c ≠ '[' := fun hcc => ha (by rw [hcc]; exact List.mem_cons_self _ _)
    have ha' : '[' ∉ a' := fun hm => ha (List.mem_cons_of_mem c hm)
    rw [List.cons_append, scanMatches_cons, mBB_none hc _]
    exact ih s b ha' hs hsb

theorem anchorOfGroup_mem_extract {a s b : List Char}
    (ha : '[' ∉ a) (hs : s ≠ []) (hsb : ']' ∉ s) :
    anchorOfGroup s ∈
      extract_section_ids (a ++ '[' :: '[' :: (s ++ ']' :: ']' :: b)) := by
  unfold extract_section_ids
  refine Finset.mem_union.mpr (Or.inl (Finset.mem_union.mpr (Or.inl ?_)))
  rw [List.mem_toFinset]
  exact List.mem_map_of_mem anchorOfGroup (scanMatches_mBB_complete a s b ha hs hsb)

/-- C4: a line beginning with one or more equals signs followed by a space
is a heading; its title — everything after the marker, trimmed — is cleaned
of anchor spans, markup delimiters, URLs and link constructs, then
normalized, and when the result is non-empty it is added to the anchor set
(an empty result contributes nothing and raises no error); in particular
the heading line with a bold span contributes my-bold-section, and a
heading whose title normalizes to nothing yields no anchor. -/
theorem claim_C4_heading_anchor :
    (∀ (content line tl : List Char),
      line ∈ splitNl content → line = '=' :: tl →
      (line.dropWhile (· == '=')).headD 'x' = ' ' →
      headingId (line.dropWhile (· == '=')) ≠ [] →
      (headingId (line.dropWhile (· == '='))).asString ∈
        extract_section_ids content) ∧
    ("my-bold-section" : String) ∈
      extract_section_ids "== My *Bold* Section".toList ∧
    extract_section_ids "== !!!".toList = ∅ := by
  refine ⟨?_, by decide, by decide⟩
  intro content line tl hmem hline hsp hne
  have hsp' : pyIsSpace ((line.dropWhile (· == '=')).headD 'x') = true := by
    rw [hsp]
    decide
  have hm := headingId_mem_findHeadingsA (splitNl content) false line tl hmem
    hline hsp' hne
  unfold extract_section_ids
  refine Finset.mem_union.mpr (Or.inr ?_)
  rw [List.mem_toFinset]
  apply List.mem_map_of_mem List.asString
  rw [List.mem_filter]
  exact ⟨hm, by simpa [List.isEmpty_iff] using hne⟩

/-- Witness for C4 at a concrete heading line. -/
theorem claim_C4_heading_anchor_witness :
    (headingId (("== Hi".toList).dropWhile (· == '='))).asString ∈
      extract_section_ids "== Hi".toList :=
  claim_C4_heading_anchor.1 "== Hi".toList "== Hi".toList
    ('=' :: ' ' :: 'H' :: 'i' :: []) (by decide) (by decide) (by decide)
    (by decide)

/-- C5: an explicit double-bracket anchor, standalone or inline, contributes
the substring up to the first comma with surrounding whitespace trimmed;
a text containing only the foo anchor yields exactly the singleton set of
foo, the display title after a comma is ignored, and the hash form applies
the same comma truncation. -/
theorem claim_C5_explicit_anchor :
    (∀ a s b : List Char, '[' ∉ a → s ≠ [] → ']' ∉ s →
      anchorOfGroup s ∈
        extract_section_ids (a ++ '[' :: '[' :: (s ++ ']' :: ']' :: b))) ∧
    extract_section_ids "[[foo]]".toList = {"foo"} ∧
    extract_section_ids "[[foo,Display Title]]".toList = {"foo"} ∧
    extract_section_ids "[#foo,Display Title]".toList = {"foo"} :=
  ⟨fun a s b ha hs hsb => anchorOfGroup_mem_extract ha hs hsb,
    by decide, by decide, by decide⟩

/-- Witness for C5 at a concrete anchor. -/
theorem claim_C5_explicit_anchor_witness :
    anchorOfGroup "foo".toList ∈
      extract_section_ids ([] ++ '[' :: '[' :: ("foo".toList ++ ']' :: ']' :: [])) :=
  claim_C5_explicit_anchor.1 [] "foo".toList [] (by decide) (by decide) (by decide)

/-!
### Reference-extractor structure lemmas
-/

theorem mem_xrefsOfLines {path : String} :
    ∀ {L : List (List Char)} {n : Nat} {x : XRefInfo},
      x ∈ xrefsOfLines path n L →
      ∃ g : List Char,
        (∃ t k, mXref t = some (g, k) ∨ mAngle t = some (g, k)) ∧
        x.xref_id = g.asString := by
  intro L
  induction L with
  | nil => intro n x h; simp [xrefsOfLines] at h
  | cons line rest ih =>
    intro n x h
    unfold xrefsOfLines at h
    rcases List.mem_append.mp h with h1 | h2
    · rcases List.mem_append.mp h1 with hx | ha
      · obtain ⟨g, hg, rfl⟩ := List.mem_map.mp hx
        obtain ⟨t, k, hm⟩ := mem_scanMatches hg
        exact ⟨g, ⟨t, k, Or.inl hm⟩, rfl⟩
      · obtain ⟨g, hg, rfl⟩ := List.mem_map.mp ha
        obtain ⟨t, k, hm⟩ := mem_scanMatches hg
        exact ⟨g, ⟨t, k, Or.inr hm⟩, rfl⟩
    · exact ih h2

theorem extract_xrefs_id_facts {content : List Char} {path : String}
    {x : XRefInfo} (h : x ∈ extract_xrefs content path) :
    x.xref_id ≠ "" ∧ ∀ c ∈ x.xref_id.toList, isIdChar c = true := by
  obtain ⟨g, ⟨t, k, hm⟩, hid⟩ := mem_xrefsOfLines h
  have hfacts : g ≠ [] ∧ ∀ c ∈ g, isIdChar c = true := by
    rcases hm with hm | hm
    · exact mXref_group hm
    · exact mAngle_group hm
  constructor
  · intro hcon
    rw [hid] at hcon
    have h2 := congrArg String.toList hcon
    rw [asString_toList] at h2
    exact hfacts.1 (by simpa using h2)
  · intro c hc
    rw [hid, asString_toList] at hc
    exact hfacts.2 c hc

theorem xrefsOfLines_line_ge {path : String} :
    ∀ {L : List (List Char)} {n : Nat} {x : XRefInfo},
      x ∈ xrefsOfLines path n L → n ≤ x.line_number := by
  intro L
  induction L with
  | nil => intro n x h; simp [xrefsOfLines] at h
  | cons line rest ih =>
    intro n x h
    unfold xrefsOfLines at h
    rcases List.mem_append.mp h with h1 | h2
    · rcases List.mem_append.mp h1 with hx | ha
      · obtain ⟨g, _, rfl⟩ := List.mem_map.mp hx
        exact le_refl n
      · obtain ⟨g, _, rfl⟩ := List.mem_map.mp ha
        exact le_refl n
    · exact Nat.le_of_succ_le (ih h2)

/-- The ordering the reference extractor actually guarantees: nondecreasing
line numbers, and within one line no angle-bracket reference ever precedes
a bracket-style reference. -/
def XOrder (a b : XRefInfo) : Prop :=
  a.line_number < b.line_number ∨
    (a.line_number = b.line_number ∧
      (a.xref_type = "xref" ∨ b.xref_type = "angle_bracket"))

theorem pairwise_of_all {α : Type} {R : α → α → Prop} (h : ∀ a b, R a b) :
    ∀ l : List α, l.Pairwise R
  | [] => List.Pairwise.nil
  | a :: t => List.Pairwise.cons (fun b _ => h a b) (pairwise_of_all h t)

theorem xrefsOfLines_pairwise (path : String) :
    ∀ (L : List (List Char)) (n : Nat),
      (xrefsOfLines path n L).Pairwise XOrder := by
  intro L
  induction L with
  | nil => intro n; simp [xrefsOfLines]
  | cons line rest ih =>
    intro n
    unfold xrefsOfLines
    refine List.pairwise_append.mpr ⟨List.pairwise_append.mpr ⟨?_, ?_, ?_⟩,
      ih (n + 1), ?_⟩
    · rw [List.pairwise_map]
      exact pairwise_of_all (fun a b => Or.inr ⟨rfl, Or.inl rfl⟩) _
    · rw [List.pairwise_map]
      exact pairwise_of_all (fun a b => Or.inr ⟨rfl, Or.inr rfl⟩) _
    · intro a ha b hb
      obtain ⟨ga, _, rfl⟩ := List.mem_map.mp ha
      obtain ⟨gb, _, rfl⟩ := List.mem_map.mp hb
      exact Or.inr ⟨rfl, Or.inl rfl⟩
    · intro a ha b hb
      have hbn : n + 1 ≤ b.line_number := xrefsOfLines_line_ge hb
      rcases List.mem_append.mp ha with h1 | h2
      · obtain ⟨ga, _, rfl⟩ := List.mem_map.mp h1
        exact Or.inl (Nat.lt_of_lt_of_le (Nat.lt_succ_self n) hbn)
      · obtain ⟨ga, _, rfl⟩ := List.mem_map.mp h2
        exact Or.inl (Nat.lt_of_lt_of_le (Nat.lt_succ_self n) hbn)

/-- C2 is refuted on the spec's own example: within the example line the
extractor emits the bracket-style reference to setup before the
angle-bracket reference to intro, not in left-to-right order. -/
theorem claim_C2_counterexample :
    (extract_xrefs "See <<intro>> and xref:setup[Setup Guide].".toList
        "doc.adoc").map XRefInfo.xref_id = ["setup", "intro"] ∧
    (["setup", "intro"] : List String) ≠ ["intro", "setup"] :=
  ⟨by decide, by decide⟩

/-- The scan of scanMatchesA annotated with the character position at
which each match begins: p is the absolute position of the head of the
remaining text and s the skip counter of consumed match characters. -/
def scanMatchesPos (m : List Char → Option (List Char × Nat)) :
    Nat → Nat → List Char → List (Nat × List Char)
  | _, _, [] => []
  | p, s + 1, _ :: cs => scanMatchesPos m (p + 1) s cs
  | p, 0, c :: cs =>
    match m (c :: cs) with
    | some (g, k) => (p, g) :: scanMatchesPos m (p + 1) k cs
    | none => scanMatchesPos m (p + 1) 0 cs

theorem scanMatchesPos_map_snd (m : List Char → Option (List Char × Nat)) :
    ∀ (l : List Char) (p s : Nat),
      (scanMatchesPos m p s l).map Prod.snd = scanMatchesA m s l := by
  intro l
  induction l with
  | nil => intro p s; cases s <;> rfl
  | cons c cs ih =>
    intro p s
    cases s with
    | succ s' => exact ih (p + 1) s'
    | zero =>
      cases hm : m (c :: cs) with
      | none =>
        simp only [scanMatchesPos, scanMatchesA, hm]
        exact ih (p + 1) 0
      | some gk =>
        obtain ⟨g, k⟩ := gk
        simp only [scanMatchesPos, scanMatchesA, hm, List.map_cons]
        rw [ih (p + 1) k]

theorem scanMatchesPos_pos_ge (m : List Char → Option (List Char × Nat)) :
    ∀ (l : List Char) (p s : Nat) (x : Nat × List Char),
      x ∈ scanMatchesPos m p s l → p ≤ x.1 := by
  intro l
  induction l with
  | nil => intro p s x h; cases s <;> simp [scanMatchesPos] at h
  | cons c cs ih =>
    intro p s x h
    cases s with
    | succ s' => exact Nat.le_of_succ_le (ih (p + 1) s' x h)
    | zero =>
      revert h
      cases hm : m (c :: cs) with
      | none =>
        intro h
        have h2 := ih (p + 1) 0 x (by simpa [scanMatchesPos, hm] using h)
        omega
      | some gk =>
        obtain ⟨g, k⟩ := gk
        intro h
        rcases List.mem_cons.mp (by simpa [scanMatchesPos, hm] using h)
          with h1 | h2
        · subst h1
          exact Nat.le_refl p
        · have h3 := ih (p + 1) k x h2
          omega

theorem scanMatchesPos_increasing (m : List Char → Option (List Char × Nat)) :
    ∀ (l : List Char) (p s : Nat),
      (scanMatchesPos m p s l).Pairwise (fun a b => a.1 < b.1) := by
  intro l
  induction l with
  | nil => intro p s; cases s <;> simp [scanMatchesPos]
  | cons c cs ih =>
    intro p s
    cases s with
    | succ s' => exact ih (p + 1) s'
    | zero =>
      cases hm : m (c :: cs) with
      | none =>
        simp only [scanMatchesPos, hm]
        exact ih (p + 1) 0
      | some gk =>
        obtain ⟨g, k⟩ := gk
        simp only [scanMatchesPos, hm]
        refine List.Pairwise.cons ?_ (ih (p + 1) k)
        intro b hb
        have h2 := scanMatchesPos_pos_ge m cs (p + 1) k b hb
        show p < b.1
        omega

theorem scanMatchesPos_match (m : List Char → Option (List Char × Nat)) :
    ∀ (l : List Char) (p s : Nat) (x : Nat × List Char),
      x ∈ scanMatchesPos m p s l →
      ∃ k, m (l.drop (x.1 - p)) = some (x.2, k) := by
  intro l
  induction l with
  | nil => intro p s x h; cases s <;> simp [scanMatchesPos] at h
  | cons c cs ih =>
    intro p s x h
    cases s with
    | succ s' =>
      have hge := scanMatchesPos_pos_ge m cs (p + 1) s' x h
      obtain ⟨k', hk'⟩ := ih (p + 1) s' x h
      refine ⟨k', ?_⟩
      rw [show x.1 - p = (x.1 - (p + 1)) + 1 by omega, List.drop_succ_cons]
      exact hk'
    | zero =>
      revert h
      cases hm : m (c :: cs) with
      | none =>
        intro h
        have h2 : x ∈ scanMatchesPos m (p + 1) 0 cs := by
          simpa [scanMatchesPos, hm] using h
        have hge := scanMatchesPos_pos_ge m cs (p + 1) 0 x h2
        obtain ⟨k', hk'⟩ := ih (p + 1) 0 x h2
        refine ⟨k', ?_⟩
        rw [show x.1 - p = (x.1 - (p + 1)) + 1 by omega, List.drop_succ_cons]
        exact hk'
      | some gk =>
        obtain ⟨g, k⟩ := gk
        intro h
        rcases List.mem_cons.mp (by simpa [scanMatchesPos, hm] using h)
          with h1 | h2
        · subst h1
          refine ⟨k, ?_⟩
          simpa using hm
        · have hge := scanMatchesPos_pos_ge m cs (p + 1) k x h2
          obtain ⟨k', hk'⟩ := ih (p + 1) k x h2
          refine ⟨k', ?_⟩
          rw [show x.1 - p = (x.1 - (p + 1)) + 1 by omega, List.drop_succ_cons]
          exact hk'

/-- C2 as amended: the extractor returns references ordered by line number;
within each line all bracket-style (xref:) references precede all
angle-bracket references, and each per-line, per-kind block lists its match
groups at strictly increasing character positions of the line — i.e. in
left-to-right order of occurrence, each group being the pattern's match at
its recorded position.  On the example line the output is the setup
bracket-style reference followed by the intro angle-bracket reference,
both at line 1; with two references of each kind the output is the two
bracket-style ones left to right, then the two angle-bracket ones left to
right. -/
theorem claim_C2_amended_ordering :
    (∀ (content : List Char) (path : String),
      (extract_xrefs content path).Pairwise XOrder) ∧
    (∀ (path : String) (n : Nat) (line : List Char) (rest : List (List Char)),
      xrefsOfLines path n (line :: rest) =
        (scanMatches mXref line).map
            (fun g => ⟨path, n, g.asString, "xref"⟩) ++
          (scanMatches mAngle line).map
            (fun g => ⟨path, n, g.asString, "angle_bracket"⟩) ++
          xrefsOfLines path (n + 1) rest) ∧
    (∀ (m : List Char → Option (List Char × Nat)) (l : List Char),
      scanMatches m l = (scanMatchesPos m 0 0 l).map Prod.snd) ∧
    (∀ (m : List Char → Option (List Char × Nat)) (l : List Char) (p s : Nat),
      (scanMatchesPos m p s l).Pairwise (fun a b => a.1 < b.1)) ∧
    (∀ (m : List Char → Option (List Char × Nat)) (l : List Char),
      ∀ x ∈ scanMatchesPos m 0 0 l, ∃ k, m (l.drop x.1) = some (x.2, k)) ∧
    extract_xrefs "See <<intro>> and xref:setup[Setup Guide].".toList
        "doc.adoc" =
      [⟨"doc.adoc", 1, "setup", "xref"⟩,
        ⟨"doc.adoc", 1, "intro", "angle_bracket"⟩] ∧
    (extract_xrefs "See <<i1>> and <<i2>> with xref:s1[] and xref:s2[].".toList
        "doc.adoc").map XRefInfo.xref_id = ["s1", "s2", "i1", "i2"] :=
  ⟨fun content path => xrefsOfLines_pairwise path (splitNl content) 1,
    fun path n line rest => rfl,
    fun m l => (scanMatchesPos_map_snd m l 0 0).symm,
    fun m l p s => scanMatchesPos_increasing m l p s,
    fun m l x hx => by simpa using scanMatchesPos_match m l 0 0 x hx,
    by decide, by decide⟩

/-- Witness for the amended C2: the first bracket-style reference of a
two-reference line is recorded at position 0 with its actual match group. -/
theorem claim_C2_amended_ordering_witness :
    ∃ k, mXref ("xref:ab[] xref:cd[]".toList.drop 0) =
      some ("ab".toList, k) :=
  claim_C2_amended_ordering.2.2.2.2.1 mXref "xref:ab[] xref:cd[]".toList
    (0, "ab".toList) (by decide)

/-- C10: every extracted reference has a non-empty target identifier over
letters, digits, hyphen and underscore; the explicit double-bracket anchor
form accepts any group free of closing brackets, and anchors such as one
containing a dot can be defined; consequently an anchor containing a
character outside the reference identifier class can never equal the
target of any extracted reference. -/
theorem claim_C10_reference_invariant :
    (∀ (content : List Char) (path : String) (x : XRefInfo),
      x ∈ extract_xrefs content path →
        x.xref_id ≠ "" ∧ ∀ c ∈ x.xref_id.toList, isIdChar c = true) ∧
    (∀ s : List Char, s ≠ [] → ']' ∉ s →
      s ∈ scanMatches mBB ('[' :: '[' :: (s ++ ']' :: ']' :: []))) ∧
    ("a.b" : String) ∈ extract_section_ids "[[a.b]]".toList ∧
    (∀ (anchor : String) (c : Char), c ∈ anchor.toList → isIdChar c = false →
      ∀ (content : List Char) (path : String) (x : XRefInfo),
        x ∈ extract_xrefs content path → x.xref_id ≠ anchor) := by
  refine ⟨fun content path x h => extract_xrefs_id_facts h, ?_, by decide, ?_⟩
  · intro s hs hsb
    have h := scanMatches_mBB_complete [] s [] (by simp) hs hsb
    simpa using h
  · intro anchor c hc hbad content path x hx hcon
    have hfacts := extract_xrefs_id_facts hx
    rw [hcon] at hfacts
    rw [hfacts.2 c hc] at hbad
    simp at hbad

/-- Witness for C10 at a concrete reference and anchor. -/
theorem claim_C10_reference_invariant_witness :
    (XRefInfo.mk "d" 1 "intro" "xref").xref_id ≠ "" ∧
    (XRefInfo.mk "d" 1 "intro" "xref").xref_id ≠ "a.b" :=
  ⟨(claim_C10_reference_invariant.1 "xref:intro[] ok".toList "d"
      (XRefInfo.mk "d" 1 "intro" "xref") (by decide)).1,
    claim_C10_reference_invariant.2.2.2 "a.b" '.' (by decide) (by decide)
      "xref:intro[] ok".toList "d" (XRefInfo.mk "d" 1 "intro" "xref")
      (by decide)⟩

/-- Witness for C6: a document defining the same identifier twice — via an
explicit anchor and a same-named heading — is not reported as a cross-file
duplicate. -/
theorem claim_C6_duplicate_report_witness :
    ("x" : String) ∉ duplicateIds [("a.adoc", some "[[x]]\n= x")] :=
  claim_C6_duplicate_report.2.2 [("a.adoc", some "[[x]]\n= x")] "x" "a.adoc"
    (by decide)
